import Mathlib

/-!
Verification of the copilot-chat repository: a shallow embedding of the
stream decoder (src/chat/stream.rs), the Myers diff engine
(src/tools/diff.rs), the file reader (src/tools/files.rs) and the
tracked-file bookkeeping (src/chat/core.rs), together with proofs and
refutations of the specification claims.

Bytes are modelled as `Nat` (one entry per byte).  Rust `usize` values are
`Nat`, Rust `i32` values are `Int`; the casts `as usize` / `as i32` are
modelled explicitly with wrap-around where the source can overflow.
Fallible operations (indexing panics) are modelled with `Option`/`Except`.
All definitions use structural fuel so that they evaluate by `decide`.
-/

namespace CopilotChat

/-! ## Byte-level constants of the stream decoder (stream.rs lines 61-62, 82) -/

/-- The event separator `CHUNK_SEPARATOR = b"\n\n"` (stream.rs line 61). -/
def chunkSep : List Nat := [10, 10]

/-- The event marker `DATA_PREFIX = b"data: "` (stream.rs line 62), as bytes. -/
def dataMark : List Nat := [100, 97, 116, 97, 58, 32]

/-- The termination sentinel `b"[DONE]"` (stream.rs line 82), as bytes. -/
def doneMark : List Nat := [91, 68, 79, 78, 69, 93]

/-- ASCII transcription of a Lean string to the byte list the decoder
consumes.  All concrete inputs used below are ASCII, where this agrees
with UTF-8. -/
def strBytes (s : String) : List Nat := s.data.map Char.toNat

/-! ## Locating the event separator

`buffer[pos..].windows(2).position(|w| w == b"\n\n")` (stream.rs lines
70-73) returns the first index at which two consecutive newline bytes
occur.  `findSep` computes that index on the unscanned suffix. -/

/-- Index `j` starts an occurrence of the two-byte event separator. -/
def isSep (l : List Nat) (j : Nat) : Prop :=
  l.get? j = some 10 ∧ l.get? (j + 1) = some 10

instance (l : List Nat) (j : Nat) : Decidable (isSep l j) := by
  unfold isSep; infer_instance

/-- First index of `b"\n\n"` in `l`, as computed by the `windows`/`position`
scan of stream.rs lines 70-73. -/
def findSep : List Nat → Option Nat
  | [] => none
  | [_] => none
  | a :: b :: rest =>
    if a = 10 ∧ b = 10 then some 0
    else (findSep (b :: rest)).map (· + 1)

theorem findSep_some_isSep : ∀ (l : List Nat) (i : Nat), findSep l = some i → isSep l i := by
  intro l
  induction l with
  | nil => intro i h; cases h
  | cons a t ih =>
    intro i h
    cases t with
    | nil => cases h
    | cons b t' =>
      by_cases hab : a = 10 ∧ b = 10
      · simp only [findSep, if_pos hab] at h
        cases h
        exact ⟨by simp [hab.1], by simp [hab.2]⟩
      · simp only [findSep, if_neg hab] at h
        obtain ⟨i', hi', rfl⟩ := Option.map_eq_some'.mp h
        have := ih i' hi'
        exact ⟨by simpa using this.1, by simpa using this.2⟩

theorem findSep_eq_none_iff (l : List Nat) : findSep l = none ↔ ∀ j, ¬ isSep l j := by
  induction l with
  | nil =>
    simp [findSep, isSep]
  | cons a t ih =>
    cases t with
    | nil =>
      simp only [findSep, true_iff]
      intro j hj
      have := hj.2
      match j with
      | 0 => simp at this
      | j + 1 => simp at this
    | cons b t' =>
      by_cases hab : a = 10 ∧ b = 10
      · simp only [findSep, if_pos hab]
        constructor
        · intro h; cases h
        · intro h
          exact absurd ⟨by simp [hab.1], by simp [hab.2]⟩ (h 0)
      · simp only [findSep, if_neg hab]
        cases hfs : findSep (b :: t') with
        | some i =>
          simp only [Option.map_some']
          constructor
          · intro h; cases h
          · intro h
            have hsep := findSep_some_isSep _ _ hfs
            exact absurd ⟨by simpa using hsep.1, by simpa using hsep.2⟩ (h (i + 1))
        | none =>
          simp only [Option.map_none', true_iff]
          have ht := ih.mp hfs
          intro j hj
          match j with
          | 0 => exact hab ⟨by simpa using hj.1, by simpa using hj.2⟩
          | j + 1 => exact ht j ⟨by simpa using hj.1, by simpa using hj.2⟩

theorem findSep_eq_some_iff (l : List Nat) (i : Nat) :
    findSep l = some i ↔ isSep l i ∧ ∀ j < i, ¬ isSep l j := by
  induction l generalizing i with
  | nil => simp [findSep, isSep]
  | cons a t ih =>
    cases t with
    | nil =>
      constructor
      · intro h; cases h
      · rintro ⟨⟨h1, h2⟩, -⟩
        cases i <;> simp_all [isSep]
    | cons b t' =>
      by_cases hab : a = 10 ∧ b = 10
      · simp only [findSep, if_pos hab]
        constructor
        · rintro h
          cases h
          refine ⟨⟨by simp [hab.1], by simp [hab.2]⟩, by omega⟩
        · rintro ⟨hi, hmin⟩
          cases i with
          | zero => rfl
          | succ i =>
            exact absurd ⟨by simp [hab.1], by simp [hab.2]⟩ (hmin 0 (Nat.succ_pos _))
      · simp only [findSep, if_neg hab]
        constructor
        · intro h
          obtain ⟨i', hi', rfl⟩ := Option.map_eq_some'.mp h
          obtain ⟨hsep, hmin⟩ := (ih i').mp hi'
          refine ⟨⟨by simpa using hsep.1, by simpa using hsep.2⟩, ?_⟩
          intro j hj
          match j with
          | 0 => exact fun hs => hab ⟨by simpa using hs.1, by simpa using hs.2⟩
          | j + 1 =>
            intro hs
            exact hmin j (by omega) ⟨by simpa using hs.1, by simpa using hs.2⟩
        · rintro ⟨hi, hmin⟩
          cases i with
          | zero =>
            exact absurd (hab ⟨by simpa using hi.1, by simpa using hi.2⟩) id
          | succ i =>
            have : findSep (b :: t') = some i := by
              rw [ih]
              refine ⟨⟨by simpa using hi.1, by simpa using hi.2⟩, ?_⟩
              intro j hj hs
              exact hmin (j + 1) (by omega) ⟨by simpa using hs.1, by simpa using hs.2⟩
            simp [this]

theorem isSep_length (l : List Nat) (i : Nat) (h : isSep l i) : i + 2 ≤ l.length := by
  obtain ⟨hlt, -⟩ := List.get?_eq_some.mp h.2
  omega

theorem findSep_some_length (l : List Nat) (i : Nat) (h : findSep l = some i) :
    i + 2 ≤ l.length :=
  isSep_length l i ((findSep_eq_some_iff l i).mp h).1

/-- A separator found in `a` is found at the same (first) position in `a ++ b`. -/
theorem findSep_append (a b : List Nat) (i : Nat) (h : findSep a = some i) :
    findSep (a ++ b) = some i := by
  obtain ⟨hsep, hmin⟩ := (findSep_eq_some_iff a i).mp h
  have hlen : i + 2 ≤ a.length := isSep_length a i hsep
  rw [findSep_eq_some_iff]
  constructor
  · constructor
    · rw [List.get?_append (by omega)]; exact hsep.1
    · rw [List.get?_append (by omega)]; exact hsep.2
  · intro j hj hs
    apply hmin j hj
    constructor
    · have := hs.1; rwa [List.get?_append (by omega)] at this
    · have := hs.2; rwa [List.get?_append (by omega)] at this

/-! ## JSON payloads

The decoder hands each event payload to `serde_json::from_slice` for the
derived `Deserialize` impls of `CopilotResponse` and `CopilotError`
(stream.rs lines 89, 101, 132-161).  `serde_json` is a third-party
library; the model below implements the JSON subset those payloads use
(objects, arrays, strings with simple escapes, integer numbers, booleans,
null, ASCII input) with serde derive semantics: unknown fields ignored,
`Option` fields absent or `null` decode to `None`, required fields must be
present, trailing input after the value fails the parse. -/

inductive Json where
  | null : Json
  | bool : Bool → Json
  | num : Int → Json
  | str : String → Json
  | arr : List Json → Json
  | obj : List (String × Json) → Json

/-- JSON whitespace bytes (space, tab, newline, carriage return). -/
def isWsByte (b : Nat) : Bool := b = 32 ∨ b = 9 ∨ b = 10 ∨ b = 13

def skipWs : List Nat → List Nat
  | [] => []
  | b :: rest => if isWsByte b then skipWs rest else b :: rest

/-- Parse the body of a JSON string after the opening quote; returns the
string and the input after the closing quote.  Handles the single-byte
escapes; `\u` escapes are not modelled (no concrete input below uses
them). -/
def parseStrBody : Nat → List Nat → Option (String × List Nat)
  | 0, _ => none
  | _ + 1, [] => none
  | fuel + 1, b :: rest =>
    if b = 34 then some ("", rest)
    else if b = 92 then
      match rest with
      | [] => none
      | e :: rest' =>
        let c? : Option Nat :=
          if e = 34 then some 34
          else if e = 92 then some 92
          else if e = 47 then some 47
          else if e = 110 then some 10
          else if e = 116 then some 9
          else if e = 114 then some 13
          else if e = 98 then some 8
          else if e = 102 then some 12
          else none
        match c? with
        | none => none
        | some c =>
          (parseStrBody fuel rest').map fun p =>
            ((Char.ofNat c).toString ++ p.1, p.2)
    else
      (parseStrBody fuel rest).map fun p => ((Char.ofNat b).toString ++ p.1, p.2)

def isDigitByte (b : Nat) : Bool := 48 ≤ b ∧ b ≤ 57

def takeDigits : List Nat → (List Nat × List Nat)
  | [] => ([], [])
  | b :: rest =>
    if isDigitByte b then
      let p := takeDigits rest
      (b :: p.1, p.2)
    else ([], b :: rest)

def digitsToNat (ds : List Nat) : Nat := ds.foldl (fun a b => a * 10 + (b - 48)) 0

/-- Parse a JSON integer (optional minus sign, at least one digit).
Floating-point forms are not modelled; no concrete input below uses
them. -/
def parseNum (l : List Nat) : Option (Int × List Nat) :=
  match l with
  | 45 :: rest =>
    match takeDigits rest with
    | ([], _) => none
    | (ds, rest') => some (-(digitsToNat ds : Int), rest')
  | _ =>
    match takeDigits l with
    | ([], _) => none
    | (ds, rest') => some ((digitsToNat ds : Int), rest')

/-- Parse a comma-separated tail of a list that was opened and whose first
element is next; `close` is the closing byte (93 for arrays, 125 for
objects). -/
def parseCommaSep {α : Type} (p : List Nat → Option (α × List Nat)) (close : Nat) :
    Nat → List Nat → Option (List α × List Nat)
  | 0, _ => none
  | fuel + 1, l =>
    match p l with
    | none => none
    | some (x, rest) =>
      match skipWs rest with
      | [] => none
      | b :: rest' =>
        if b = 44 then
          (parseCommaSep p close fuel rest').map fun q => (x :: q.1, q.2)
        else if b = close then some ([x], rest')
        else none

/-- Parse one JSON value (after optional leading whitespace), returning the
remaining input. -/
def parseVal : Nat → List Nat → Option (Json × List Nat)
  | 0, _ => none
  | fuel + 1, input =>
    match skipWs input with
    | [] => none
    | b :: rest =>
      if b = 34 then
        (parseStrBody (fuel + 1) rest).map fun p => (Json.str p.1, p.2)
      else if b = 123 then
        match skipWs rest with
        | 125 :: rest' => some (Json.obj [], rest')
        | other =>
          let member : List Nat → Option ((String × Json) × List Nat) := fun l =>
            match skipWs l with
            | 34 :: l' =>
              match parseStrBody fuel l' with
              | none => none
              | some (key, l'') =>
                match skipWs l'' with
                | 58 :: l''' =>
                  (parseVal fuel l''').map fun q => ((key, q.1), q.2)
                | _ => none
            | _ => none
          (parseCommaSep member 125 fuel other).map fun q => (Json.obj q.1, q.2)
      else if b = 91 then
        match skipWs rest with
        | 93 :: rest' => some (Json.arr [], rest')
        | other =>
          (parseCommaSep (parseVal fuel) 93 fuel other).map fun q => (Json.arr q.1, q.2)
      else if b = 116 then
        if rest.take 3 = [114, 117, 101] then some (Json.bool true, rest.drop 3) else none
      else if b = 102 then
        if rest.take 4 = [97, 108, 115, 101] then some (Json.bool false, rest.drop 4) else none
      else if b = 110 then
        if rest.take 3 = [117, 108, 108] then some (Json.null, rest.drop 3) else none
      else
        (parseNum (b :: rest)).map fun p => (Json.num p.1, p.2)

/-- Parse a whole input as one JSON value; anything but trailing whitespace
after the value fails, as `serde_json::from_slice` does. -/
def parseJson (l : List Nat) : Option Json :=
  match parseVal (l.length + 1) l with
  | none => none
  | some (v, rest) => if skipWs rest = [] then some v else none

/-! ## The deserialized shapes (stream.rs lines 132-161) -/

/-- `struct Delta { content: Option<String> }` (stream.rs lines 149-152). -/
structure Delta where
  content : Option String
deriving DecidableEq

/-- `struct Choice { delta: Option<Delta>, index: i32, finish_reason: Option<String> }`
(stream.rs lines 155-161). -/
structure Choice where
  delta : Option Delta
  index : Int
  finish_reason : Option String
deriving DecidableEq

/-- `struct CopilotResponse { choices: Vec<Choice> }` (stream.rs lines 143-146). -/
structure CopilotResponse where
  choices : List Choice
deriving DecidableEq

/-- First field of an object with the given key (serde derive keeps the
first occurrence it meets; the concrete payloads below have no duplicate
keys). -/
def jLookup (fields : List (String × Json)) (k : String) : Option Json :=
  (fields.find? fun f => f.1 = k).map fun f => f.2

/-- serde semantics of an `Option<String>` field: absent or `null` is
`none`, a string is `some`, any other shape fails the whole parse. -/
def decodeOptString : Option Json → Option (Option String)
  | none => some none
  | some Json.null => some none
  | some (Json.str s) => some (some s)
  | some _ => none

def decodeDelta : Json → Option Delta
  | Json.obj fs => (decodeOptString (jLookup fs "content")).map Delta.mk
  | _ => none

def decodeOptDelta : Option Json → Option (Option Delta)
  | none => some none
  | some Json.null => some none
  | some j => (decodeDelta j).map some

/-- serde decode of `Choice`: `index` is a required `i32` (range-checked),
`delta` and `finish_reason` are optional. -/
def decodeChoice (j : Json) : Option Choice :=
  match j with
  | Json.obj fs =>
    match decodeOptDelta (jLookup fs "delta") with
    | none => none
    | some d =>
      match jLookup fs "index" with
      | some (Json.num n) =>
        if -(2 ^ 31) ≤ n ∧ n < 2 ^ 31 then
          match decodeOptString (jLookup fs "finish_reason") with
          | none => none
          | some fr => some ⟨d, n, fr⟩
        else none
      | _ => none
  | _ => none

def decodeCopilotResponse (j : Json) : Option CopilotResponse :=
  match j with
  | Json.obj fs =>
    match jLookup fs "choices" with
    | some (Json.arr xs) => (xs.mapM decodeChoice).map CopilotResponse.mk
    | _ => none
  | _ => none

/-- `serde_json::from_slice::<CopilotResponse>` (stream.rs line 89). -/
def parseCopilotResponse (l : List Nat) : Option CopilotResponse :=
  (parseJson l).bind decodeCopilotResponse

/-- `serde_json::from_slice::<CopilotError>` (stream.rs lines 101, 132-140);
the only use of the value is `err.error.message`, so the model returns the
message directly. -/
def parseCopilotError (l : List Nat) : Option String :=
  (parseJson l).bind fun j =>
    match j with
    | Json.obj fs =>
      match jLookup fs "error" with
      | some (Json.obj efs) =>
        match jLookup efs "message" with
        | some (Json.str m) => some m
        | _ => none
      | _ => none
    | _ => none

/-! ## The processing loop of `Streamer::process_buffer`

stream.rs lines 56-129.  The Rust loop keeps a cursor `pos` into the
buffer; the model recurses on the unscanned suffix `rest` and accumulates
`chunks` (the delta strings) and `total_consumed`.  The fuel argument is
the suffix length at entry, which bounds the number of iterations (each
iteration drops at least two bytes). -/

/-- The text fragment pushed for one successfully parsed completion
payload: the first choice's delta content, when present (stream.rs lines
91-97). -/
def firstContent (resp : CopilotResponse) : Option String :=
  match resp.choices.head? with
  | none => none
  | some choice =>
    match choice.delta with
    | none => none
    | some d => d.content

/-- One pass of the `while pos < buffer.len()` loop (stream.rs lines
68-122) over the unscanned suffix `rest`. -/
def processLoop : Nat → List Nat → List String → Nat → Except String (List String × Nat)
  | 0, _, chunks, consumed => Except.ok (chunks, consumed)
  | fuel + 1, rest, chunks, consumed =>
    match findSep rest with
    | none => Except.ok (chunks, consumed)
    | some i =>
      let chunk := rest.take i
      if dataMark.isPrefixOf chunk then
        let jsonData := chunk.drop dataMark.length
        if doneMark.isPrefixOf jsonData then
          Except.ok (chunks, consumed + i + 2)
        else
          match parseCopilotResponse jsonData with
          | some resp =>
            let chunks' :=
              match firstContent resp with
              | some content => chunks ++ [content]
              | none => chunks
            processLoop fuel (rest.drop (i + 2)) chunks' (consumed + i + 2)
          | none =>
            match parseCopilotError jsonData with
            | some msg => Except.error msg
            | none => Except.error "cannot parse chunk"
      else
        processLoop fuel (rest.drop (i + 2)) chunks (consumed + i + 2)

/-- `Streamer::process_buffer` (stream.rs lines 56-129): scans the whole
buffer and returns the delta strings with the byte count to advance, or
`none` when nothing complete was consumed. -/
def process_buffer (buffer : List Nat) : Except String (Option (List String × Nat)) :=
  if buffer.isEmpty then Except.ok none
  else
    match processLoop buffer.length buffer [] 0 with
    | Except.error e => Except.error e
    | Except.ok (chunks, total_consumed) =>
      if chunks.isEmpty ∧ total_consumed = 0 then Except.ok none
      else Except.ok (some (chunks, total_consumed))

/-! ## The feed loop of `Streamer::handle_stream` (stream.rs lines 24-52)

The network stream is a list of byte chunks; the loop appends each chunk
to the buffer, runs `process_buffer`, advances the buffer when a result is
returned, and for every delta both appends it to the accumulated response
string (`response.push_str`) and sends it over the channel.  The state is
`(buffer, response, sent)` where `sent` records the channel traffic in
order. -/

/-- `response.push_str(&chunk_str)` for each delta in order (stream.rs
lines 40-44). -/
def pushAll (response : String) (chunks : List String) : String :=
  chunks.foldl (fun r c => r ++ c) response

def streamLoop : List (List Nat) → List Nat → String → List String →
    Except String (List Nat × String × List String)
  | [], buffer, response, sent => Except.ok (buffer, response, sent)
  | c :: cs, buffer, response, sent =>
    let buffer := buffer ++ c
    match process_buffer buffer with
    | Except.error e => Except.error e
    | Except.ok none => streamLoop cs buffer response sent
    | Except.ok (some (chunks, advance)) =>
      streamLoop cs (buffer.drop advance) (pushAll response chunks) (sent ++ chunks)

/-- The roles of a chat message.  `System` and `User` are the variants of
`Role` in src/chat/core.rs lines 331-337.  Modelled from the spec: the
`Assistant` variant (used by `handle_stream` at stream.rs line 49 and
listed in the spec's data model `Role ∈ {System, User, Assistant}`) is
absent from the enum in the source snapshot. -/
inductive Role where
  | system : Role
  | user : Role
  | assistant : Role
deriving DecidableEq

/-- `struct Message { role: Role, content: String }` (core.rs lines 323-328). -/
structure Message where
  role : Role
  content : String
deriving DecidableEq

/-- `Streamer::handle_stream` (stream.rs lines 24-52) over a whole chunk
list, also returning the list of deltas sent over the channel. -/
def handle_stream (cs : List (List Nat)) : Except String (Message × List String) :=
  match streamLoop cs [] "" [] with
  | Except.error e => Except.error e
  | Except.ok (_, response, sent) => Except.ok (⟨Role.assistant, response⟩, sent)

/-- The ordered deltas produced by feeding the chunks one at a time
(append, process, advance), as in claim C1's protocol. -/
def feedDeltas (cs : List (List Nat)) : Except String (List String) :=
  match streamLoop cs [] "" [] with
  | Except.error e => Except.error e
  | Except.ok (_, _, sent) => Except.ok sent

/-- The ordered deltas of a single `process_buffer` call on an entire byte
sequence. -/
def processDeltas (buffer : List Nat) : Except String (List String) :=
  match process_buffer buffer with
  | Except.error e => Except.error e
  | Except.ok none => Except.ok []
  | Except.ok (some (chunks, _)) => Except.ok chunks

/-! ## Decomposition of a buffer into complete events

The loop of `process_buffer` repeatedly splits the buffer at the first
event separator; `splitEvents` computes the resulting list of complete
events and the trailing remainder (which contains no separator).  This is
the specification device used to reason about chunk boundaries. -/

def splitEventsAux : Nat → List Nat → List (List Nat) × List Nat
  | 0, l => ([], l)
  | fuel + 1, l =>
    match findSep l with
    | none => ([], l)
    | some i =>
      let p := splitEventsAux fuel (l.drop (i + 2))
      (l.take i :: p.1, p.2)

def splitEvents (l : List Nat) : List (List Nat) × List Nat := splitEventsAux l.length l

theorem splitEventsAux_fuel :
    ∀ (f₁ : Nat) (l : List Nat) (f₂ : Nat), l.length ≤ f₁ → l.length ≤ f₂ →
      splitEventsAux f₁ l = splitEventsAux f₂ l := by
  intro f₁
  induction f₁ with
  | zero =>
    intro l f₂ h₁ _
    have : l = [] := List.length_eq_zero.mp (Nat.le_zero.mp h₁)
    subst this
    cases f₂ with
    | zero => rfl
    | succ g => simp [splitEventsAux, findSep]
  | succ f ih =>
    intro l f₂ h₁ h₂
    cases f₂ with
    | zero =>
      have : l = [] := List.length_eq_zero.mp (Nat.le_zero.mp h₂)
      subst this
      simp [splitEventsAux, findSep]
    | succ g =>
      simp only [splitEventsAux]
      cases hfs : findSep l with
      | none => rfl
      | some i =>
        have hlen := findSep_some_length l i hfs
        have hd : (l.drop (i + 2)).length = l.length - (i + 2) := List.length_drop _ _
        dsimp only
        rw [ih (l.drop (i + 2)) g (by omega) (by omega)]

theorem splitEvents_of_none (l : List Nat) (h : findSep l = none) :
    splitEvents l = ([], l) := by
  unfold splitEvents
  cases hl : l.length with
  | zero => rfl
  | succ m => simp [splitEventsAux, h]

theorem splitEvents_of_some (l : List Nat) (i : Nat) (h : findSep l = some i) :
    splitEvents l =
      (l.take i :: (splitEvents (l.drop (i + 2))).1, (splitEvents (l.drop (i + 2))).2) := by
  have hlen := findSep_some_length l i h
  unfold splitEvents
  have hl : ∃ m, l.length = m + 1 := ⟨l.length - 1, by omega⟩
  obtain ⟨m, hm⟩ := hl
  rw [hm]
  simp only [splitEventsAux, h]
  have hd : (l.drop (i + 2)).length = l.length - (i + 2) := List.length_drop _ _
  rw [splitEventsAux_fuel m (l.drop (i + 2)) (l.drop (i + 2)).length (by omega) (by omega)]

theorem splitEvents_rest_noSep (l : List Nat) : findSep (splitEvents l).2 = none := by
  generalize hn : l.length = n
  induction n using Nat.strong_induction_on generalizing l with
  | _ n ih =>
    cases hfs : findSep l with
    | none => rw [splitEvents_of_none l hfs]; exact hfs
    | some i =>
      rw [splitEvents_of_some l i hfs]
      have hlen := findSep_some_length l i hfs
      have hd : (l.drop (i + 2)).length = l.length - (i + 2) := List.length_drop _ _
      exact ih (l.drop (i + 2)).length (by omega) _ rfl

theorem splitEvents_rest_suffix (l : List Nat) : (splitEvents l).2 <:+ l := by
  generalize hn : l.length = n
  induction n using Nat.strong_induction_on generalizing l with
  | _ n ih =>
    cases hfs : findSep l with
    | none => rw [splitEvents_of_none l hfs]
    | some i =>
      rw [splitEvents_of_some l i hfs]
      have hlen := findSep_some_length l i hfs
      have hd : (l.drop (i + 2)).length = l.length - (i + 2) := List.length_drop _ _
      exact ((ih (l.drop (i + 2)).length (by omega) _ rfl).trans (List.drop_suffix _ _))

theorem suffix_drop_eq (r l : List Nat) (h : r <:+ l) :
    l.drop (l.length - r.length) = r := by
  obtain ⟨p, rfl⟩ := h
  have : (p ++ r).length - r.length = p.length := by
    simp [List.length_append]
  rw [this]
  exact List.drop_left p r

theorem splitEvents_append (a b : List Nat) :
    splitEvents (a ++ b) =
      ((splitEvents a).1 ++ (splitEvents ((splitEvents a).2 ++ b)).1,
       (splitEvents ((splitEvents a).2 ++ b)).2) := by
  generalize hn : a.length = n
  induction n using Nat.strong_induction_on generalizing a with
  | _ n ih =>
    cases hfs : findSep a with
    | none =>
      rw [splitEvents_of_none a hfs]
      simp
    | some i =>
      have hlen := findSep_some_length a i hfs
      have hfs' : findSep (a ++ b) = some i := findSep_append a b i hfs
      rw [splitEvents_of_some a i hfs, splitEvents_of_some (a ++ b) i hfs']
      rw [List.take_append_of_le_length (by omega),
          List.drop_append_of_le_length (by omega)]
      have hd : (a.drop (i + 2)).length = a.length - (i + 2) := List.length_drop _ _
      rw [ih (a.drop (i + 2)).length (by omega) _ rfl]
      simp

/-! ## Relating the processing loop to the event decomposition -/

/-- The delta contributed by one complete event: non-`data: ` events are
skipped, and a parsed completion payload contributes its first choice's
content when present. -/
def eventDelta (e : List Nat) : Option String :=
  if dataMark.isPrefixOf e then
    match parseCopilotResponse (e.drop dataMark.length) with
    | some resp => firstContent resp
    | none => none
  else none

/-- An event neither terminates nor fails the decode: if it carries the
`data: ` marker, its payload is not the sentinel and parses as a
completion object. -/
def GoodEvent (e : List Nat) : Prop :=
  dataMark.isPrefixOf e = true →
    (¬ doneMark.isPrefixOf (e.drop dataMark.length) = true ∧
     parseCopilotResponse (e.drop dataMark.length) ≠ none)

instance (e : List Nat) : Decidable (GoodEvent e) := by
  unfold GoodEvent; infer_instance

theorem processLoop_good :
    ∀ (fuel : Nat) (l : List Nat) (chunks : List String) (consumed : Nat),
      l.length ≤ fuel →
      (∀ e ∈ (splitEvents l).1, GoodEvent e) →
      processLoop fuel l chunks consumed =
        Except.ok (chunks ++ (splitEvents l).1.filterMap eventDelta,
                   consumed + (l.length - (splitEvents l).2.length)) := by
  intro fuel
  induction fuel with
  | zero =>
    intro l chunks consumed h₁ _
    have : l = [] := List.length_eq_zero.mp (Nat.le_zero.mp h₁)
    subst this
    rw [splitEvents_of_none [] rfl]
    simp [processLoop]
  | succ f ih =>
    intro l chunks consumed h₁ hg
    cases hfs : findSep l with
    | none =>
      rw [splitEvents_of_none l hfs]
      simp [processLoop, hfs]
    | some i =>
      have hlen := findSep_some_length l i hfs
      have hd : (l.drop (i + 2)).length = l.length - (i + 2) := List.length_drop _ _
      have hrest_suffix := splitEvents_rest_suffix (l.drop (i + 2))
      have hrest_len : (splitEvents (l.drop (i + 2))).2.length ≤ l.length - (i + 2) := by
        have := hrest_suffix.length_le
        omega
      rw [splitEvents_of_some l i hfs] at hg ⊢
      have hghead : GoodEvent (l.take i) := hg _ (by simp)
      have hgtail : ∀ e ∈ (splitEvents (l.drop (i + 2))).1, GoodEvent e := by
        intro e he
        exact hg e (by simp [he])
      have harith : consumed + i + 2 +
          ((l.drop (i + 2)).length - (splitEvents (l.drop (i + 2))).2.length)
          = consumed + (l.length - (splitEvents (l.drop (i + 2))).2.length) := by omega
      simp only [processLoop, hfs]
      by_cases hpref : dataMark.isPrefixOf (l.take i) = true
      · obtain ⟨hdone, hparse⟩ := hghead hpref
        rw [if_pos hpref, if_neg hdone]
        cases hparse' : parseCopilotResponse ((l.take i).drop dataMark.length) with
        | none => exact absurd hparse' hparse
        | some resp =>
          dsimp only
          have hdelta : eventDelta (l.take i) = firstContent resp := by
            unfold eventDelta
            rw [if_pos hpref, hparse']
          cases hfc : firstContent resp with
          | none =>
            rw [ih (l.drop (i + 2)) chunks (consumed + i + 2) (by omega) hgtail, harith]
            simp only [List.filterMap_cons, hdelta, hfc]
          | some c =>
            rw [ih (l.drop (i + 2)) (chunks ++ [c]) (consumed + i + 2) (by omega) hgtail,
                harith]
            simp only [List.filterMap_cons, hdelta, hfc]
            simp
      · have hdelta : eventDelta (l.take i) = none := by
          unfold eventDelta
          rw [if_neg hpref]
        rw [if_neg hpref]
        rw [ih (l.drop (i + 2)) chunks (consumed + i + 2) (by omega) hgtail, harith]
        simp only [List.filterMap_cons, hdelta]

/-- `process_buffer` on a buffer whose complete events are all good. -/
theorem processDeltas_good (l : List Nat)
    (hg : ∀ e ∈ (splitEvents l).1, GoodEvent e) :
    processDeltas l = Except.ok ((splitEvents l).1.filterMap eventDelta) := by
  unfold processDeltas process_buffer
  by_cases hemp : l.isEmpty
  · have : l = [] := by
      cases l with
      | nil => rfl
      | cons x xs => simp [List.isEmpty] at hemp
    subst this
    rw [splitEvents_of_none [] rfl]
    simp
  · rw [if_neg hemp, processLoop_good l.length l [] 0 (le_refl _) hg]
    simp only [List.nil_append, Nat.zero_add]
    by_cases hc : ((splitEvents l).1.filterMap eventDelta).isEmpty ∧
        l.length - (splitEvents l).2.length = 0
    · rw [if_pos hc]
      have : (splitEvents l).1.filterMap eventDelta = [] := by
        cases h : (splitEvents l).1.filterMap eventDelta with
        | nil => rfl
        | cons x xs => rw [h] at hc; simp [List.isEmpty] at hc
      rw [this]
    · rw [if_neg hc]

theorem pushAll_pushAll (r : String) (x y : List String) :
    pushAll (pushAll r x) y = pushAll r (x ++ y) := by
  unfold pushAll
  rw [List.foldl_append]

/-- The feed loop on a buffer-without-separator state, when every complete
event of the total byte sequence is good: the final buffer is the
remainder of the total bytes and the deltas (also the response text)
accumulate exactly the per-event deltas in order. -/
theorem streamLoop_good :
    ∀ (cs : List (List Nat)) (p : List Nat) (response : String) (sent : List String),
      findSep p = none →
      (∀ e ∈ (splitEvents (p ++ cs.flatten)).1, GoodEvent e) →
      streamLoop cs p response sent =
        Except.ok ((splitEvents (p ++ cs.flatten)).2,
          pushAll response ((splitEvents (p ++ cs.flatten)).1.filterMap eventDelta),
          sent ++ (splitEvents (p ++ cs.flatten)).1.filterMap eventDelta) := by
  intro cs
  induction cs with
  | nil =>
    intro p response sent hp _
    rw [List.flatten_nil, List.append_nil, splitEvents_of_none p hp]
    simp [streamLoop, pushAll]
  | cons c cs ih =>
    intro p response sent hp hg
    have hassoc : p ++ (c :: cs).flatten = (p ++ c) ++ cs.flatten := by
      simp [List.flatten_cons, List.append_assoc]
    rw [hassoc] at hg ⊢
    have hdecomp := splitEvents_append (p ++ c) cs.flatten
    have hgood1 : ∀ e ∈ (splitEvents (p ++ c)).1, GoodEvent e := by
      intro e he
      apply hg
      rw [hdecomp]
      exact List.mem_append_left _ he
    have hgood2 : ∀ e ∈ (splitEvents ((splitEvents (p ++ c)).2 ++ cs.flatten)).1,
        GoodEvent e := by
      intro e he
      apply hg
      rw [hdecomp]
      exact List.mem_append_right _ he
    have hrest_nosep : findSep (splitEvents (p ++ c)).2 = none := splitEvents_rest_noSep _
    have hrest_suffix : (splitEvents (p ++ c)).2 <:+ (p ++ c) := splitEvents_rest_suffix _
    simp only [streamLoop]
    by_cases hemp : (p ++ c).isEmpty
    · have hpc : p ++ c = [] := by
        cases hpc' : p ++ c with
        | nil => rfl
        | cons x xs => rw [hpc'] at hemp; simp [List.isEmpty] at hemp
      rw [hpc]
      have h0 : process_buffer [] = Except.ok none := by simp [process_buffer]
      rw [h0]
      have hsplitnil : splitEvents ([] : List Nat) = ([], []) := splitEvents_of_none [] rfl
      have hgood' : ∀ e ∈ (splitEvents ([] ++ cs.flatten)).1, GoodEvent e := by
        intro e he
        apply hgood2
        rw [hpc] at *
        rw [hsplitnil]
        exact he
      exact ih [] response sent rfl hgood'
    · have hbuf := processLoop_good (p ++ c).length (p ++ c) [] 0 (le_refl _) hgood1
      have hpb : process_buffer (p ++ c) =
          if ((splitEvents (p ++ c)).1.filterMap eventDelta).isEmpty ∧
             ((p ++ c).length - (splitEvents (p ++ c)).2.length) = 0
          then Except.ok none
          else Except.ok (some ((splitEvents (p ++ c)).1.filterMap eventDelta,
                 (p ++ c).length - (splitEvents (p ++ c)).2.length)) := by
        unfold process_buffer
        rw [if_neg hemp, hbuf]
        simp only [List.nil_append, Nat.zero_add]
      by_cases hc : ((splitEvents (p ++ c)).1.filterMap eventDelta).isEmpty ∧
          ((p ++ c).length - (splitEvents (p ++ c)).2.length) = 0
      · rw [hpb, if_pos hc]
        have hleneq : (splitEvents (p ++ c)).2.length = (p ++ c).length := by
          have h1 := hrest_suffix.length_le
          have h2 := hc.2
          omega
        have hreq : (splitEvents (p ++ c)).2 = p ++ c := hrest_suffix.eq_of_length hleneq
        have hnosep : findSep (p ++ c) = none := by rw [← hreq]; exact hrest_nosep
        have hgood' : ∀ e ∈ (splitEvents ((p ++ c) ++ cs.flatten)).1, GoodEvent e := hg
        exact ih (p ++ c) response sent hnosep hgood'
      · rw [hpb, if_neg hc]
        have hdropeq : (p ++ c).drop ((p ++ c).length - (splitEvents (p ++ c)).2.length)
            = (splitEvents (p ++ c)).2 := suffix_drop_eq _ _ hrest_suffix
        dsimp only
        rw [hdropeq,
            ih ((splitEvents (p ++ c)).2)
              (pushAll response ((splitEvents (p ++ c)).1.filterMap eventDelta))
              (sent ++ (splitEvents (p ++ c)).1.filterMap eventDelta)
              hrest_nosep hgood2,
            hdecomp]
        simp [List.filterMap_append, pushAll_pushAll, List.append_assoc]

instance {ε α : Type} [DecidableEq ε] [DecidableEq α] : DecidableEq (Except ε α) :=
  fun a b =>
  match a, b with
  | Except.ok x, Except.ok y =>
    if h : x = y then isTrue (by rw [h]) else isFalse (by intro hh; cases hh; exact h rfl)
  | Except.error x, Except.error y =>
    if h : x = y then isTrue (by rw [h]) else isFalse (by intro hh; cases hh; exact h rfl)
  | Except.ok _, Except.error _ => isFalse (by intro hh; cases hh)
  | Except.error _, Except.ok _ => isFalse (by intro hh; cases hh)

/-! ## Claim theorems for the stream decoder -/

/-- C1 counterexample: the claim fails as stated.  For the byte sequence
`data: [DONE]\n\n` followed by a well-formed content event, a single
`process_buffer` call stops at the sentinel and yields no delta, while
feeding the two events as separate chunks yields the delta `"x"` of the
event that follows the sentinel: the two protocols disagree. -/
theorem c1_counterexample :
    feedDeltas [strBytes "data: [DONE]\n\n",
        strBytes "data: \x7b\"choices\":[\x7b\"index\":0,\"delta\":\x7b\"content\":\"x\"\x7d\x7d]\x7d\n\n"]
      = Except.ok ["x"] ∧
    processDeltas (List.flatten [strBytes "data: [DONE]\n\n",
        strBytes "data: \x7b\"choices\":[\x7b\"index\":0,\"delta\":\x7b\"content\":\"x\"\x7d\x7d]\x7d\n\n"])
      = Except.ok [] := by
  constructor <;> rfl

/-- C1 (amended): chunk-boundary independence holds for every byte sequence
none of whose complete events is the termination sentinel and all of whose
`data: `-prefixed complete events parse as completion objects: feeding the
chunks one at a time yields the same ordered delta sequence as one
`process_buffer` call on the whole sequence. -/
theorem c1_chunk_boundary_independence (cs : List (List Nat))
    (hg : ∀ e ∈ (splitEvents cs.flatten).1, GoodEvent e) :
    feedDeltas cs = processDeltas cs.flatten := by
  have h1 := streamLoop_good cs [] "" [] rfl (by simpa using hg)
  simp only [List.nil_append] at h1
  unfold feedDeltas
  rw [h1, processDeltas_good cs.flatten hg]

/-- Witness for C1 at a concrete two-chunk split that cuts one event's JSON
payload in half. -/
theorem c1_witness :
    (∀ e ∈ (splitEvents (List.flatten [strBytes "data: \x7b\"choices\":[\x7b\"ind",
        strBytes "ex\":0,\"delta\":\x7b\"content\":\"hi\"\x7d\x7d]\x7d\n\ndata: \x7b\"choices\":[]\x7d\n\n"])).1,
      GoodEvent e) ∧
    feedDeltas [strBytes "data: \x7b\"choices\":[\x7b\"ind",
        strBytes "ex\":0,\"delta\":\x7b\"content\":\"hi\"\x7d\x7d]\x7d\n\ndata: \x7b\"choices\":[]\x7d\n\n"]
      = processDeltas (List.flatten [strBytes "data: \x7b\"choices\":[\x7b\"ind",
        strBytes "ex\":0,\"delta\":\x7b\"content\":\"hi\"\x7d\x7d]\x7d\n\ndata: \x7b\"choices\":[]\x7d\n\n"]) :=
  ⟨by decide, c1_chunk_boundary_independence _ (by decide)⟩

/-- C4: a buffer with no event separator produces no result
(`process_buffer` returns `none`: zero deltas, zero consumed), and the
feed loop leaves those bytes in the buffer, so the next call sees them
prefixed to newly appended input. -/
theorem c4_partial_retention (b : List Nat) (h : ∀ j, ¬ isSep b j) :
    process_buffer b = Except.ok none ∧
    ∀ (cs : List (List Nat)) (p c : List Nat) (response : String) (sent : List String),
      p ++ c = b →
      streamLoop (c :: cs) p response sent = streamLoop cs b response sent := by
  have hfs : findSep b = none := (findSep_eq_none_iff b).mpr h
  have hsplit := splitEvents_of_none b hfs
  have hpb : process_buffer b = Except.ok none := by
    unfold process_buffer
    by_cases hemp : b.isEmpty
    · rw [if_pos hemp]
    · rw [if_neg hemp,
          processLoop_good b.length b [] 0 (le_refl _) (by rw [hsplit]; intro e he; cases he),
          hsplit]
      simp
  refine ⟨hpb, ?_⟩
  intro cs p c response sent hpc
  simp only [streamLoop, hpc, hpb]

/-- Witness for C4: an unterminated event fragment. -/
theorem c4_witness :
    (∀ j, ¬ isSep (strBytes "data: \x7b\"incomplete") j) ∧
    process_buffer (strBytes "data: \x7b\"incomplete") = Except.ok none := by
  have h : ∀ j, ¬ isSep (strBytes "data: \x7b\"incomplete") j :=
    (findSep_eq_none_iff _).mp (by decide)
  exact ⟨h, (c4_partial_retention _ h).1⟩

/-- C5 counterexample: the decoder keeps no termination state across feed
calls, so a feed made after the sentinel was observed is not a no-op: the
sentinel feed yields no delta, but a later feed carrying a content event
still yields its delta. -/
theorem c5_counterexample :
    feedDeltas [strBytes "data: [DONE]\n\n"] = Except.ok [] ∧
    feedDeltas [strBytes "data: [DONE]\n\n",
        strBytes "data: \x7b\"choices\":[\x7b\"index\":0,\"delta\":\x7b\"content\":\" more\"\x7d\x7d]\x7d\n\n"]
      = Except.ok [" more"] := by
  constructor <;> rfl

/-- C5 (amended): a complete sentinel event yields no delta for itself and
halts event processing for that feed call (everything after it in the
buffer is left unprocessed by that call); the concrete input of one
content event with fragment `" the"` followed by the sentinel yields
exactly one delta `" the"`.  (The decoder is stateless across calls, so
subsequent feeds are not suppressed.) -/
theorem c5_termination (fuel i : Nat) (rest : List Nat) (chunks : List String)
    (consumed : Nat)
    (hsep : findSep rest = some i)
    (hdata : dataMark.isPrefixOf (rest.take i) = true)
    (hdone : doneMark.isPrefixOf ((rest.take i).drop dataMark.length) = true) :
    processLoop (fuel + 1) rest chunks consumed = Except.ok (chunks, consumed + i + 2) ∧
    feedDeltas [strBytes
        "data: \x7b\"choices\":[\x7b\"index\":0,\"delta\":\x7b\"content\":\" the\"\x7d\x7d]\x7d\n\ndata: [DONE]"]
      = Except.ok [" the"] := by
  constructor
  · simp only [processLoop, hsep]
    rw [if_pos hdata, if_pos hdone]
  · rfl

/-- Witness for C5 at a concrete sentinel event followed by further bytes. -/
theorem c5_witness :
    (findSep (strBytes "data: [DONE]\n\ndata: later") = some 12 ∧
     dataMark.isPrefixOf ((strBytes "data: [DONE]\n\ndata: later").take 12) = true ∧
     doneMark.isPrefixOf (((strBytes "data: [DONE]\n\ndata: later").take 12).drop
       dataMark.length) = true) ∧
    processLoop 25 (strBytes "data: [DONE]\n\ndata: later") ["a"] 7
      = Except.ok (["a"], 7 + 12 + 2) :=
  ⟨⟨by decide, by decide, by decide⟩,
   (c5_termination 24 12 (strBytes "data: [DONE]\n\ndata: later") ["a"] 7
     (by decide) (by decide) (by decide)).1⟩

/-- C6 counterexample: the emission condition is not "present and
non-empty" and not "some choice": an event whose first choice carries the
empty content fragment still emits one (empty) delta, and an event whose
content fragment sits in the second choice emits none. -/
theorem c6_counterexample :
    processDeltas (strBytes
        "data: \x7b\"choices\":[\x7b\"index\":0,\"delta\":\x7b\"content\":\"\"\x7d\x7d]\x7d\n\n")
      = Except.ok [""] ∧
    processDeltas (strBytes
        "data: \x7b\"choices\":[\x7b\"index\":0\x7d,\x7b\"index\":1,\"delta\":\x7b\"content\":\"hi\"\x7d\x7d]\x7d\n\n")
      = Except.ok [] := by
  constructor <;> rfl

/-- C6 (amended): for a complete event whose payload parses as a completion
object, the decoder emits one delta exactly when the first choice's delta
holds a content fragment that is present (possibly empty); otherwise the
event is consumed without a delta and without an error, and processing
continues. -/
theorem c6_delta_emission (fuel i : Nat) (rest : List Nat) (chunks : List String)
    (consumed : Nat) (payload : List Nat) (resp : CopilotResponse)
    (hsep : findSep rest = some i)
    (hchunk : rest.take i = dataMark ++ payload)
    (hdone : ¬ doneMark.isPrefixOf payload = true)
    (hparse : parseCopilotResponse payload = some resp) :
    processLoop (fuel + 1) rest chunks consumed =
      processLoop fuel (rest.drop (i + 2))
        (chunks ++ (firstContent resp).toList) (consumed + i + 2) := by
  have hdata : dataMark.isPrefixOf (rest.take i) = true := by
    rw [hchunk]
    exact List.isPrefixOf_iff_prefix.mpr (List.prefix_append _ _)
  have hdrop : (rest.take i).drop dataMark.length = payload := by
    rw [hchunk]
    exact List.drop_left _ _
  simp only [processLoop, hsep]
  rw [if_pos hdata, hdrop, if_neg hdone, hparse]
  cases hfc : firstContent resp <;> simp [hfc]

/-- Witness for C6 at a concrete content-free first choice. -/
theorem c6_witness :
    (findSep (strBytes "data: \x7b\"choices\":[\x7b\"index\":0\x7d]\x7d\n\n") = some 31 ∧
     (strBytes "data: \x7b\"choices\":[\x7b\"index\":0\x7d]\x7d\n\n").take 31
       = dataMark ++ strBytes "\x7b\"choices\":[\x7b\"index\":0\x7d]\x7d" ∧
     ¬ doneMark.isPrefixOf (strBytes "\x7b\"choices\":[\x7b\"index\":0\x7d]\x7d") = true ∧
     parseCopilotResponse (strBytes "\x7b\"choices\":[\x7b\"index\":0\x7d]\x7d")
       = some ⟨[⟨none, 0, none⟩]⟩) ∧
    processLoop 33 (strBytes "data: \x7b\"choices\":[\x7b\"index\":0\x7d]\x7d\n\n") [] 0
      = processLoop 32 ((strBytes "data: \x7b\"choices\":[\x7b\"index\":0\x7d]\x7d\n\n").drop 33)
          ([] ++ (firstContent ⟨[⟨none, 0, none⟩]⟩).toList) (0 + 31 + 2) :=
  ⟨⟨by decide, by decide, by decide, by decide⟩,
   c6_delta_emission 32 31 _ [] 0 (strBytes "\x7b\"choices\":[\x7b\"index\":0\x7d]\x7d")
     ⟨[⟨none, 0, none⟩]⟩ (by decide) (by decide) (by decide) (by decide)⟩

/-- C7: a complete event whose payload fails the completion parse but
parses as a structured error object with message `msg` aborts the decode
call with exactly that message (so the surfaced error contains it
verbatim), and no further event of the buffer is processed. -/
theorem c7_provider_error (fuel i : Nat) (rest : List Nat) (chunks : List String)
    (consumed : Nat) (payload : List Nat) (msg : String)
    (hsep : findSep rest = some i)
    (hchunk : rest.take i = dataMark ++ payload)
    (hdone : ¬ doneMark.isPrefixOf payload = true)
    (hparse : parseCopilotResponse payload = none)
    (herr : parseCopilotError payload = some msg) :
    processLoop (fuel + 1) rest chunks consumed = Except.error msg := by
  have hdata : dataMark.isPrefixOf (rest.take i) = true := by
    rw [hchunk]
    exact List.isPrefixOf_iff_prefix.mpr (List.prefix_append _ _)
  have hdrop : (rest.take i).drop dataMark.length = payload := by
    rw [hchunk]
    exact List.drop_left _ _
  simp only [processLoop, hsep]
  rw [if_pos hdata, hdrop, if_neg hdone, hparse, herr]

/-- Witness for C7 at a concrete provider-error payload. -/
theorem c7_witness :
    (findSep (strBytes "data: \x7b\"error\":\x7b\"message\":\"boom\"\x7d\x7d\n\n") = some 34 ∧
     (strBytes "data: \x7b\"error\":\x7b\"message\":\"boom\"\x7d\x7d\n\n").take 34
       = dataMark ++ strBytes "\x7b\"error\":\x7b\"message\":\"boom\"\x7d\x7d" ∧
     ¬ doneMark.isPrefixOf (strBytes "\x7b\"error\":\x7b\"message\":\"boom\"\x7d\x7d") = true ∧
     parseCopilotResponse (strBytes "\x7b\"error\":\x7b\"message\":\"boom\"\x7d\x7d") = none ∧
     parseCopilotError (strBytes "\x7b\"error\":\x7b\"message\":\"boom\"\x7d\x7d") = some "boom") ∧
    processLoop 40 (strBytes "data: \x7b\"error\":\x7b\"message\":\"boom\"\x7d\x7d\n\n") [] 0
      = Except.error "boom" :=
  ⟨⟨by decide, by decide, by decide, by decide, by decide⟩,
   c7_provider_error 39 34 _ [] 0 (strBytes "\x7b\"error\":\x7b\"message\":\"boom\"\x7d\x7d")
     "boom" (by decide) (by decide) (by decide) (by decide) (by decide)⟩

theorem pushAll_eq_append_join (x : List String) :
    ∀ r : String, pushAll r x = r ++ String.join x := by
  induction x with
  | nil =>
    intro r
    show r = r ++ String.join []
    simp [String.join]
  | cons c x ih =>
    intro r
    show pushAll (r ++ c) x = r ++ String.join (c :: x)
    rw [ih (r ++ c)]
    have hj : String.join (c :: x) = c ++ String.join x := by
      show pushAll ("" ++ c) x = c ++ String.join x
      rw [ih ("" ++ c)]
      simp
    rw [hj, String.append_assoc]

theorem join_append_str (s t : List String) :
    String.join (s ++ t) = String.join s ++ String.join t := by
  show pushAll "" (s ++ t) = _
  rw [← pushAll_pushAll, pushAll_eq_append_join t (pushAll "" s)]
  rfl

theorem streamLoop_response :
    ∀ (cs : List (List Nat)) (b : List Nat) (r : String) (s : List String)
      (out : List Nat × String × List String),
      streamLoop cs b r s = Except.ok out →
      r = String.join s →
      out.2.1 = String.join out.2.2 := by
  intro cs
  induction cs with
  | nil =>
    intro b r s out h hr
    simp only [streamLoop] at h
    cases h
    exact hr
  | cons c cs ih =>
    intro b r s out h hr
    simp only [streamLoop] at h
    cases hpb : process_buffer (b ++ c) with
    | error e => rw [hpb] at h; cases h
    | ok res =>
      rw [hpb] at h
      cases res with
      | none => exact ih _ _ _ _ h hr
      | some pair =>
        refine ih _ _ _ _ h ?_
        rw [hr, pushAll_eq_append_join, join_append_str]

/-- C9: whenever `handle_stream` returns a message, its role is the
assistant role and its content is the concatenation, in decode order, of
exactly the delta strings sent over the channel. -/
theorem c9_pipeline_aggregation (cs : List (List Nat)) (m : Message) (sent : List String)
    (h : handle_stream cs = Except.ok (m, sent)) :
    m.role = Role.assistant ∧ m.content = String.join sent := by
  unfold handle_stream at h
  cases hsl : streamLoop cs [] "" [] with
  | error e => rw [hsl] at h; cases h
  | ok out =>
    rw [hsl] at h
    cases h
    exact ⟨rfl, streamLoop_response cs [] "" [] out hsl rfl⟩

set_option maxRecDepth 4000 in
/-- Witness for C9 at a concrete two-event stream. -/
theorem c9_witness :
    handle_stream [strBytes
        "data: \x7b\"choices\":[\x7b\"index\":0,\"delta\":\x7b\"content\":\"Rust \"\x7d\x7d]\x7d\n\ndata: \x7b\"choices\":[\x7b\"index\":0,\"delta\":\x7b\"content\":\"rocks\"\x7d\x7d]\x7d\n\n"]
      = Except.ok (⟨Role.assistant, "Rust rocks"⟩, ["Rust ", "rocks"]) ∧
    (⟨Role.assistant, "Rust rocks"⟩ : Message).role = Role.assistant ∧
    (⟨Role.assistant, "Rust rocks"⟩ : Message).content = String.join ["Rust ", "rocks"] :=
  ⟨by decide,
   c9_pipeline_aggregation
     [strBytes
       "data: \x7b\"choices\":[\x7b\"index\":0,\"delta\":\x7b\"content\":\"Rust \"\x7d\x7d]\x7d\n\ndata: \x7b\"choices\":[\x7b\"index\":0,\"delta\":\x7b\"content\":\"rocks\"\x7d\x7d]\x7d\n\n"]
     ⟨Role.assistant, "Rust rocks"⟩ ["Rust ", "rocks"] (by decide)⟩

/-! ## The Myers diff engine (src/tools/diff.rs)

`usize` is `Nat`, `i32` is `Int`.  The two casts that occur (`as usize`
on a possibly negative `i32`, `as i32` on a `usize`) are modelled with
their Rust wrap-around semantics.  `Vec` indexing out of bounds is a Rust
panic, modelled by `Option`: a `none` result of any function below means
the original program panics. -/

/-- Rust `x as usize` for `x : i32` (sign extension, then reinterpret). -/
def usizeOfI32 (n : Int) : Nat := (n % (2 : Int) ^ 64).toNat

/-- Rust `x as i32` for `x : usize` (truncate to 32 bits, reinterpret
signed). -/
def i32OfUsize (n : Nat) : Int :=
  let m : Nat := n % 2 ^ 32
  if m < 2 ^ 31 then (m : Int) else (m : Int) - 2 ^ 32

/-- `enum Diff` (diff.rs lines 7-11). -/
inductive Diff where
  | Match : Nat × String → Diff
  | Insert : Nat × String → Diff
  | Delete : Nat × String → Diff
deriving DecidableEq

/-- `struct LineSequence` (diff.rs lines 186-189). -/
structure LineSequence where
  hashes : List Nat
  lines : List String
deriving DecidableEq

/-- The interning pass shared by both line lists of
`LineSequence::from_lines` (diff.rs lines 194-230): `m` is the insertion
map (`HashMap<&str, usize>` keyed by line, insertion order preserved) and
`next` the next id; returns the hash list, the extended map and the next
id. -/
def internAll : List (String × Nat) → Nat → List String →
    (List Nat × List (String × Nat) × Nat)
  | m, next, [] => ([], m, next)
  | m, next, line :: rest =>
    match m.find? (fun e => e.1 = line) with
    | some e =>
      let p := internAll m next rest
      (e.2 :: p.1, p.2)
    | none =>
      let p := internAll (m ++ [(line, next)]) (next + 1) rest
      (next :: p.1, p.2)

/-- `LineSequence::from_lines` (diff.rs lines 194-230) on two line lists. -/
def LineSequence.from_lines (lines1 lines2 : List String) :
    LineSequence × LineSequence :=
  let p1 := internAll [] 0 lines1
  let p2 := internAll p1.2.1 p1.2.2 lines2
  (⟨p1.1, lines1⟩, ⟨p2.1, lines2⟩)

/-- `struct SignedArray` (diff.rs lines 154-157). -/
structure SignedArray where
  pos_arr : List Int
  neg_arr : List Int
deriving DecidableEq

/-- `SignedArray::new` (diff.rs lines 160-165). -/
def SignedArray.new (length : Nat) : SignedArray :=
  ⟨List.replicate (length + 1) (-1), List.replicate (length + 1) (-1)⟩

/-- `SignedArray::set` (diff.rs lines 167-173); `none` is the indexing
panic. -/
def SignedArray.set (a : SignedArray) (idx : Int) (v : Int) : Option SignedArray :=
  if idx < 0 then
    if (-idx).toNat < a.neg_arr.length then
      some ⟨a.pos_arr, a.neg_arr.set (-idx).toNat v⟩
    else none
  else
    if idx.toNat < a.pos_arr.length then
      some ⟨a.pos_arr.set idx.toNat v, a.neg_arr⟩
    else none

/-- `SignedArray::get` (diff.rs lines 175-181); `none` is the indexing
panic. -/
def SignedArray.get (a : SignedArray) (idx : Int) : Option Int :=
  if idx < 0 then a.neg_arr.get? (-idx).toNat else a.pos_arr.get? idx.toNat

/-- The condition `k == -d || (k != d && v.get(k - 1) < v.get(k + 1))` and
the two branches computing `x_start` (diff.rs lines 49-53), with the
short-circuit evaluation determining which array cells are read. -/
def xStart (v : SignedArray) (d k : Int) : Option Int :=
  if k = -d then v.get (k + 1)
  else if k ≠ d then
    match v.get (k - 1), v.get (k + 1) with
    | some a, some b => if a < b then some b else some (a + 1)
    | _, _ => none
  else (v.get (k - 1)).map (· + 1)

/-- The snake `while x < x_axis_len && y < y_axis_len && seq1[x] == seq2[y]`
(diff.rs lines 59-62).  The guards make the hash indexing safe, so
`get?`-success coincides with the bound checks. -/
def snake (h1 h2 : List Nat) : Nat → Nat → Nat → (Nat × Nat)
  | 0, x, y => (x, y)
  | fuel + 1, x, y =>
    match h1.get? x, h2.get? y with
    | some a, some b => if a = b then snake h1 h2 fuel (x + 1) (y + 1) else (x, y)
    | _, _ => (x, y)

/-- The diagonal list `(-d..=d).step_by(2)` (diff.rs line 48). -/
def stepRange (d : Int) : List Int :=
  (List.range (d.toNat + 1)).map fun j => -d + 2 * (j : Int)

/-- The inner `for k` loop of one forward round (diff.rs lines 48-70):
returns `Sum.inr ()` when the bottom-right corner was reached
(`break 'outer`), otherwise the finished `v_current`. -/
def innerLoop (h1 h2 : List Nat) (len1 len2 : Nat) (d : Int) (v : SignedArray) :
    List Int → SignedArray → Option (SignedArray ⊕ Unit)
  | [], vcur => some (Sum.inl vcur)
  | k :: ks, vcur =>
    match xStart v d k with
    | none => none
    | some xs =>
      let ys := xs - k
      let p := snake h1 h2 (len1 + 1) (usizeOfI32 xs) (usizeOfI32 ys)
      match vcur.set k (i32OfUsize p.1) with
      | none => none
      | some vcur' =>
        if len1 ≤ p.1 ∧ len2 ≤ p.2 then some (Sum.inr ())
        else innerLoop h1 h2 len1 len2 d v ks vcur'

/-- The outer `for d in 0..=max` loop (diff.rs lines 45-74); the fuel is
the number of remaining iterations.  When the range is exhausted without
a break, `final_d` keeps its initial value `0` (diff.rs line 43). -/
def outerLoop (h1 h2 : List Nat) (len1 len2 arrLen : Nat) :
    Nat → Int → List SignedArray → SignedArray → Option (Int × List SignedArray)
  | 0, _, trace, _ => some (0, trace)
  | fuel + 1, d, trace, v =>
    match innerLoop h1 h2 len1 len2 d v (stepRange d) (SignedArray.new arrLen) with
    | none => none
    | some (Sum.inr _) => some (d, trace)
    | some (Sum.inl vcur) =>
      outerLoop h1 h2 len1 len2 arrLen fuel (d + 1) (trace ++ [vcur]) vcur

/-- The backtrack snake `while x > prev_x && y > prev_y` (diff.rs lines
94-98), pushing a `Match` per step.  The fuel is `x` at entry, which
bounds the iterations; `none` models the `lines` indexing panic. -/
def btSnake (lines1 : List String) (prev_x prev_y : Nat) :
    Nat → Nat → Nat → List Diff → Option (Nat × Nat × List Diff)
  | 0, x, y, edits => some (x, y, edits)
  | fuel + 1, x, y, edits =>
    if prev_x < x ∧ prev_y < y then
      match lines1.get? (x - 1) with
      | none => none
      | some line =>
        btSnake lines1 prev_x prev_y fuel (x - 1) (y - 1) (edits ++ [Diff.Match (x, line)])
    else some (x, y, edits)

/-- One step `d` of the backtrack loop plus recursion over
`(0..final_d).rev()` (diff.rs lines 81-107).  `none` models the `trace`
or `lines` indexing panics and the debug-mode underflow of `x -= 1` /
`y -= 1` at zero. -/
def btLoop (seq1 seq2 : LineSequence) (trace : List SignedArray) :
    Nat → Int → Nat → Nat → List Diff → Option (List Diff)
  | 0, _, _, _, edits => some edits
  | fuel + 1, d, x, y, edits =>
    match trace.get? (usizeOfI32 d) with
    | none => none
    | some v =>
      let k := i32OfUsize x - i32OfUsize y
      let prevk? : Option Int :=
        if k = -d then some (k + 1)
        else if k ≠ d then
          match v.get (k - 1), v.get (k + 1) with
          | some a, some b => some (if a < b then k + 1 else k - 1)
          | _, _ => none
        else some (k - 1)
      match prevk? with
      | none => none
      | some prev_k =>
        match v.get prev_k with
        | none => none
        | some pxi =>
          let prev_x := usizeOfI32 pxi
          let prev_y := usizeOfI32 (i32OfUsize prev_x - prev_k)
          match btSnake seq1.lines prev_x prev_y x x y edits with
          | none => none
          | some (x', y', edits') =>
            if x' = prev_x then
              match seq2.lines.get? (y' - 1) with
              | none => none
              | some line =>
                if y' = 0 then none
                else btLoop seq1 seq2 trace fuel (d - 1) x' (y' - 1)
                       (edits' ++ [Diff.Insert (y', line)])
            else
              match seq1.lines.get? (x' - 1) with
              | none => none
              | some line =>
                if x' = 0 then none
                else btLoop seq1 seq2 trace fuel (d - 1) (x' - 1) y'
                       (edits' ++ [Diff.Delete (x', line)])

/-- `DiffsManager::from_myers_algorithm` (diff.rs lines 33-113), returning
the `diffs` list; `none` models a panic of the original code. -/
def DiffsManager.from_myers_algorithm (seq1 seq2 : LineSequence) :
    Option (List Diff) :=
  let x_axis_len := seq1.hashes.length
  let y_axis_len := seq2.hashes.length
  let max := i32OfUsize (x_axis_len + y_axis_len)
  let arrLen := usizeOfI32 max
  match (SignedArray.new arrLen).set 1 0 with
  | none => none
  | some v =>
    match outerLoop seq1.hashes seq2.hashes x_axis_len y_axis_len arrLen
        (max + 1).toNat 0 [] v with
    | none => none
    | some (final_d, trace) =>
      match btLoop seq1 seq2 trace final_d.toNat (final_d - 1)
          x_axis_len y_axis_len [] with
      | none => none
      | some edits => some edits.reverse

/-! ## Claim theorems for the diff engine -/

theorem i32OfUsize_of_lt (k : Nat) (h : k < 2 ^ 31) : i32OfUsize k = k := by
  unfold i32OfUsize
  have hm : k % 2 ^ 32 = k := Nat.mod_eq_of_lt (by omega)
  simp only [hm]
  rw [if_pos h]

theorem usizeOfI32_of_nat (k : Nat) (h : k < 2 ^ 64) : usizeOfI32 k = k := by
  unfold usizeOfI32
  rw [Int.emod_eq_of_lt (by omega) (by exact_mod_cast h)]
  exact Int.toNat_natCast k

/-- The snake over two equal hash sequences starting on the diagonal runs
to the end of the sequence. -/
theorem snake_self (h : List Nat) :
    ∀ (fuel x : Nat), x ≤ h.length → h.length - x ≤ fuel →
      snake h h fuel x x = (h.length, h.length) := by
  intro fuel
  induction fuel with
  | zero =>
    intro x hx hf
    have : x = h.length := by omega
    subst this
    rfl
  | succ f ih =>
    intro x hx hf
    by_cases hxl : x < h.length
    · have hget : h.get? x = some (h.get ⟨x, hxl⟩) := List.get?_eq_get hxl
      simp only [snake, hget]
      rw [if_pos trivial]
      exact ih (x + 1) (by omega) (by omega)
    · have hxe : x = h.length := by omega
      subst hxe
      have hget : h.get? h.length = none := List.get?_eq_none.mpr (le_refl _)
      simp [snake, hget]

/-- The forward pass on two identical hash sequences of positive length
finds the corner in round `d = 0` with an empty trace, and the backtrack
therefore emits nothing: the algorithm returns the empty edit script. -/
theorem myers_self (h : List Nat) (lines1 lines2 : List String)
    (hne : 1 ≤ h.length) (hb : h.length < 2 ^ 30) :
    DiffsManager.from_myers_algorithm ⟨h, lines1⟩ ⟨h, lines2⟩ = some [] := by
  have hmax : i32OfUsize (h.length + h.length) = (h.length + h.length : Nat) :=
    i32OfUsize_of_lt _ (by omega)
  have harr : usizeOfI32 ((h.length + h.length : Nat) : Int) = h.length + h.length := by
    have := usizeOfI32_of_nat (h.length + h.length) (by omega)
    exact_mod_cast this
  unfold DiffsManager.from_myers_algorithm
  simp only [hmax, harr]
  have hset : (SignedArray.new (h.length + h.length)).set 1 0 =
      some ⟨(List.replicate (h.length + h.length + 1) (-1)).set 1 0,
            List.replicate (h.length + h.length + 1) (-1)⟩ := by
    unfold SignedArray.new SignedArray.set
    rw [if_neg (by omega)]
    rw [if_pos (by simp [List.length_replicate]; omega)]
    rfl
  rw [hset]
  have hfuel : ((((h.length + h.length : Nat) : Int)) + 1).toNat
      = h.length + h.length + 1 := by omega
  rw [hfuel]
  have hstep : stepRange 0 = [0] := by decide
  have hv1 : SignedArray.get
      ⟨(List.replicate (h.length + h.length + 1) (-1)).set 1 0,
       List.replicate (h.length + h.length + 1) (-1)⟩ (0 + 1) = some 0 := by
    unfold SignedArray.get
    rw [if_neg (by omega)]
    have : ((0 : Int) + 1).toNat = 1 := by decide
    rw [this]
    exact List.get?_set_eq_of_lt 0 (by simp [List.length_replicate]; omega)
  have hxs : xStart
      ⟨(List.replicate (h.length + h.length + 1) (-1)).set 1 0,
       List.replicate (h.length + h.length + 1) (-1)⟩ 0 0 = some 0 := by
    unfold xStart
    rw [if_pos (by decide)]
    exact hv1
  have hsnake : snake h h (h.length + 1) (usizeOfI32 0) (usizeOfI32 (0 - 0)) =
      (h.length, h.length) := by
    have h0 : usizeOfI32 0 = 0 := by decide
    have h00 : usizeOfI32 (0 - 0) = 0 := by decide
    rw [h0, h00]
    exact snake_self h (h.length + 1) 0 (by omega) (by omega)
  have hinner : innerLoop h h h.length h.length 0
      ⟨(List.replicate (h.length + h.length + 1) (-1)).set 1 0,
       List.replicate (h.length + h.length + 1) (-1)⟩ [0]
      (SignedArray.new (h.length + h.length)) = some (Sum.inr ()) := by
    unfold innerLoop
    rw [hxs]
    simp only [hsnake]
    have hsetc : (SignedArray.new (h.length + h.length)).set 0
        (i32OfUsize h.length) =
        some ⟨(List.replicate (h.length + h.length + 1) (-1)).set 0
          (i32OfUsize h.length), List.replicate (h.length + h.length + 1) (-1)⟩ := by
      unfold SignedArray.new SignedArray.set
      rw [if_neg (by omega)]
      rw [if_pos (by simp [List.length_replicate])]
      rfl
    rw [hsetc]
    dsimp only
    rw [if_pos ⟨le_refl _, le_refl _⟩]
  have houter : outerLoop h h h.length h.length (h.length + h.length)
      (h.length + h.length + 1) 0 []
      ⟨(List.replicate (h.length + h.length + 1) (-1)).set 1 0,
       List.replicate (h.length + h.length + 1) (-1)⟩ = some (0, []) := by
    show (match innerLoop h h h.length h.length 0
        ⟨(List.replicate (h.length + h.length + 1) (-1)).set 1 0,
         List.replicate (h.length + h.length + 1) (-1)⟩ (stepRange 0)
        (SignedArray.new (h.length + h.length)) with
      | none => none
      | some (Sum.inr _) => some ((0 : Int), ([] : List SignedArray))
      | some (Sum.inl vcur) =>
        outerLoop h h h.length h.length (h.length + h.length)
          (h.length + h.length) (0 + 1) ([] ++ [vcur]) vcur) = some (0, [])
    rw [hstep, hinner]
  dsimp only
  rw [houter]
  simp [btLoop]

theorem internAll_length :
    ∀ (L : List String) (m : List (String × Nat)) (next : Nat),
      (internAll m next L).1.length = L.length := by
  intro L
  induction L with
  | nil => intro m next; rfl
  | cons line t ih =>
    intro m next
    unfold internAll
    cases m.find? (fun e => e.1 = line) with
    | some e => simp [ih]
    | none => simp [ih]

/-- Map extension: every key bound in `m₁` is bound to the same entry in
`m₂`. -/
def MapExtends (m₁ m₂ : List (String × Nat)) : Prop :=
  ∀ (s : String) (v : String × Nat),
    m₁.find? (fun e => e.1 = s) = some v → m₂.find? (fun e => e.1 = s) = some v

theorem mapExtends_refl (m : List (String × Nat)) : MapExtends m m := fun _ _ h => h

theorem mapExtends_trans {m₁ m₂ m₃ : List (String × Nat)}
    (h₁ : MapExtends m₁ m₂) (h₂ : MapExtends m₂ m₃) : MapExtends m₁ m₃ :=
  fun s v h => h₂ s v (h₁ s v h)

theorem mapExtends_append (m : List (String × Nat)) (x : List (String × Nat)) :
    MapExtends m (m ++ x) := by
  intro s v h
  rw [List.find?_append, h]
  rfl

theorem internAll_extends :
    ∀ (L : List String) (m : List (String × Nat)) (next : Nat),
      MapExtends m (internAll m next L).2.1 := by
  intro L
  induction L with
  | nil => intro m next; exact mapExtends_refl m
  | cons line t ih =>
    intro m next
    unfold internAll
    cases hf : m.find? (fun e => e.1 = line) with
    | some e => exact ih m next
    | none =>
      exact mapExtends_trans (mapExtends_append m [(line, next)])
        (ih (m ++ [(line, next)]) (next + 1))

theorem find?_append_self (m : List (String × Nat)) (line : String) (next : Nat)
    (h : m.find? (fun e => e.1 = line) = none) :
    (m ++ [(line, next)]).find? (fun e => e.1 = line) = some (line, next) := by
  rw [List.find?_append, h]
  simp [List.find?]

/-- A second interning pass over the same lines, against any extension of
the map produced by the first pass, reproduces the first pass's hashes. -/
theorem internAll_stable :
    ∀ (L : List String) (m : List (String × Nat)) (next : Nat)
      (m₂ : List (String × Nat)) (n₂ : Nat),
      MapExtends (internAll m next L).2.1 m₂ →
      (internAll m₂ n₂ L).1 = (internAll m next L).1 := by
  intro L
  induction L with
  | nil => intro m next m₂ n₂ _; rfl
  | cons line t ih =>
    intro m next m₂ n₂ hext
    unfold internAll
    cases hf : m.find? (fun e => e.1 = line) with
    | some e =>
      have hft : MapExtends m (internAll m next t).2.1 := internAll_extends t m next
      have hmid : (internAll m next t).2.1.find? (fun x => x.1 = line) = some e :=
        hft line e hf
      have hm2 : m₂.find? (fun x => x.1 = line) = some e := by
        apply hext line e
        unfold internAll
        rw [hf]
        exact hmid
      rw [hm2]
      have hrec := ih m next m₂ n₂ (by
        intro s v hv
        apply hext s v
        unfold internAll
        rw [hf]
        exact hv)
      simp [hrec, internAll, hf]
    | none =>
      have hft : MapExtends (m ++ [(line, next)])
          (internAll (m ++ [(line, next)]) (next + 1) t).2.1 :=
        internAll_extends t (m ++ [(line, next)]) (next + 1)
      have hmid : (internAll (m ++ [(line, next)]) (next + 1) t).2.1.find?
          (fun x => x.1 = line) = some (line, next) :=
        hft line (line, next) (find?_append_self m line next hf)
      have hm2 : m₂.find? (fun x => x.1 = line) = some (line, next) := by
        apply hext line (line, next)
        unfold internAll
        rw [hf]
        exact hmid
      rw [hm2]
      have hrec := ih (m ++ [(line, next)]) (next + 1) m₂ n₂ (by
        intro s v hv
        apply hext s v
        unfold internAll
        rw [hf]
        exact hv)
      simp [hrec, internAll, hf]

/-- Interning the same line list twice yields the same hash sequence for
both output sequences. -/
theorem from_lines_self (lines : List String) :
    (LineSequence.from_lines lines lines).2.hashes
      = (LineSequence.from_lines lines lines).1.hashes := by
  unfold LineSequence.from_lines
  exact internAll_stable lines [] 0 (internAll [] 0 lines).2.1
    (internAll [] 0 lines).2.2 (mapExtends_refl _)

/-- C2 counterexample: on the identical one-line texts, the algorithm
returns the empty edit script, not one `Match` entry per line. -/
theorem c2_counterexample :
    DiffsManager.from_myers_algorithm
      (LineSequence.from_lines ["same line"] ["same line"]).1
      (LineSequence.from_lines ["same line"] ["same line"]).2
      = some [] ∧
    (some [] : Option (List Diff)) ≠ some [Diff.Match (1, "same line")] := by
  constructor
  · decide
  · decide

/-- C2 (amended): for every pair of identical texts with at least one line
and fewer than `2^30` lines (so the `i32` arithmetic of the
implementation does not wrap), `from_myers_algorithm` on the two
`LineSequence`s built from them returns the empty edit script: the
search ends in round zero and the backtrack loop never runs, so not even
`Match` entries are produced (and with zero lines the initial
`v.set(1, 0)` indexes out of bounds). -/
theorem c2_diff_identity (lines : List String) (hne : lines ≠ [])
    (hb : lines.length < 2 ^ 30) :
    DiffsManager.from_myers_algorithm
      (LineSequence.from_lines lines lines).1
      (LineSequence.from_lines lines lines).2 = some [] := by
  have hlen1 : (LineSequence.from_lines lines lines).1.hashes.length = lines.length := by
    unfold LineSequence.from_lines
    exact internAll_length lines [] 0
  have hl2 : (LineSequence.from_lines lines lines).1.lines = lines := rfl
  have heq := from_lines_self lines
  have h1 : (LineSequence.from_lines lines lines).1 =
      ⟨(LineSequence.from_lines lines lines).1.hashes, lines⟩ := rfl
  have h2 : (LineSequence.from_lines lines lines).2 =
      ⟨(LineSequence.from_lines lines lines).1.hashes, lines⟩ := by
    rw [← heq]
    exact rfl
  rw [h1, h2]
  apply myers_self
  · rw [hlen1]
    have : 0 < lines.length := List.length_pos.mpr hne
    omega
  · rw [hlen1]
    exact hb

/-- Witness for C2 at a concrete three-line identical text (with a
repeated line). -/
theorem c2_witness :
    (["alpha", "beta", "alpha"] : List String) ≠ [] ∧
    (["alpha", "beta", "alpha"] : List String).length < 2 ^ 30 ∧
    DiffsManager.from_myers_algorithm
      (LineSequence.from_lines ["alpha", "beta", "alpha"] ["alpha", "beta", "alpha"]).1
      (LineSequence.from_lines ["alpha", "beta", "alpha"] ["alpha", "beta", "alpha"]).2
      = some [] :=
  ⟨by decide, by decide,
   c2_diff_identity ["alpha", "beta", "alpha"] (by decide) (by decide)⟩

/-- C3: the literal scenario of the claim: the diff of the two given texts
is exactly the listed edit script, in order. -/
theorem c3_diff_literal_scenario :
    DiffsManager.from_myers_algorithm
      (LineSequence.from_lines
        ["hello, this is a test",
         "and this is a Myers" ++ (Char.ofNat 39).toString ++ " Algorithm",
         "hello world", "Bye world"]
        ["bye, this is a test",
         "and this is a Myers" ++ (Char.ofNat 39).toString ++ " Algorithm",
         "hello earth", "bye world", "additional line"]).1
      (LineSequence.from_lines
        ["hello, this is a test",
         "and this is a Myers" ++ (Char.ofNat 39).toString ++ " Algorithm",
         "hello world", "Bye world"]
        ["bye, this is a test",
         "and this is a Myers" ++ (Char.ofNat 39).toString ++ " Algorithm",
         "hello earth", "bye world", "additional line"]).2
      = some
        [Diff.Delete (1, "hello, this is a test"),
         Diff.Insert (1, "bye, this is a test"),
         Diff.Match (2, "and this is a Myers" ++ (Char.ofNat 39).toString ++ " Algorithm"),
         Diff.Delete (3, "hello world"),
         Diff.Delete (4, "Bye world"),
         Diff.Insert (3, "hello earth"),
         Diff.Insert (4, "bye world"),
         Diff.Insert (5, "additional line")] := by
  decide

/-! ## The file reader (src/tools/files.rs) and tracked files

Filesystem state and the clock are supplied as an environment: `readFile`
is the result of `std::fs::read_to_string` (`none` = failure), `modTime`
the filesystem modification time (`none` = metadata failure), `now` the
current time.  Times are `Nat` ticks. -/

/-- `struct TrackedFile` (files.rs lines 33-39). -/
structure TrackedFile where
  path : String
  content : String
  last_modification : Nat
deriving DecidableEq

/-- The filesystem/clock environment consumed by the reader. -/
structure FsEnv where
  readFile : String → Option String
  modTime : String → Option Nat
  now : Nat

/-- Modelled from the spec: `update_modified_time` is called at files.rs
line 68 but its definition is missing from the source snapshot.  Per the
spec's collaborator contract (filesystem metadata `(path) -> modified_at`
and "replace the baseline content and modification time with the current
values"), it sets the readable's modified time to the file's filesystem
modification time, failing when the metadata is unavailable. -/
def update_modified_time (env : FsEnv) (tf : TrackedFile) : Option TrackedFile :=
  (env.modTime tf.path).map fun t => { tf with last_modification := t }

/-- `FileReader::read` (files.rs lines 54-75): a read failure is replaced
by the empty string (the content is still stored), a metadata failure by
the current time; the call always returns `Ok` with the stored content. -/
def FileReader.read (env : FsEnv) (tf : TrackedFile) :
    Except String String × TrackedFile :=
  let content := (env.readFile tf.path).getD ""
  let tf1 : TrackedFile := { tf with content := content }
  let tf2 : TrackedFile :=
    match update_modified_time env tf1 with
    | some tf' => tf'
    | none => { tf1 with last_modification := env.now }
  (Except.ok tf2.content, tf2)

/-- First `:`-split of `str::split_once(':')`. -/
def splitOnceColon (s : String) : Option (String × String) :=
  match s.splitOn ":" with
  | [] => none
  | [_] => none
  | x :: rest => some (x, String.intercalate ":" rest)

/-- First `-`-split of `str::split_once('-')`. -/
def splitOnceDash (s : String) : Option (String × String) :=
  match s.splitOn "-" with
  | [] => none
  | [_] => none
  | x :: rest => some (x, String.intercalate "-" rest)

/-- `usize::from_str` on a decimal string (digits only). -/
def parseNatStr (s : String) : Option Nat :=
  if s.length ≠ 0 ∧ s.data.all (fun c => c.isDigit) then
    some (s.data.foldl (fun a c => a * 10 + (c.toNat - 48)) 0)
  else none

/-- `struct Range` (diff.rs lines 118-121); the Rust field `end` is a Lean
keyword and is called `stop` here. -/
structure Range where
  start : Nat
  stop : Nat
deriving DecidableEq

/-- `Range::from_file_arg` (diff.rs lines 136-149). -/
def Range.from_file_arg (arg : String) : Option Range :=
  match splitOnceColon arg with
  | none => none
  | some (_, range) =>
    match splitOnceDash range with
    | none => none
    | some (s, e) => some ⟨(parseNatStr s).getD 1, (parseNatStr e).getD 0⟩

/-- The path part of a `path[:range]` argument: everything before the
first `:`, or the whole argument (files.rs lines 96-100 and core.rs lines
216-220 compute this identically). -/
def filePathOf (arg : String) : String :=
  match splitOnceColon arg with
  | some p => p.1
  | none => arg

/-- `TrackedFile::from_file_arg` (files.rs lines 95-112). -/
def TrackedFile.from_file_arg (env : FsEnv) (arg : String) : TrackedFile :=
  let path := filePathOf arg
  { path := path, content := "", last_modification := (env.modTime path).getD env.now }

/-- Rust `str::lines`: split at `\n`, drop a final empty piece, strip a
trailing `\r` from each line. -/
def rustLines (s : String) : List String :=
  let parts := s.splitOn "\n"
  let parts := if parts.getLast? = some "" then parts.dropLast else parts
  parts.map fun p => if p.endsWith "\r" then p.dropRight 1 else p

/-- `Readable::add_line_numbers` (reader.rs lines 24-32). -/
def add_line_numbers (content : String) : String :=
  String.join ((rustLines content).enum.map fun p =>
    toString (p.1 + 1) ++ ": " ++ p.2 ++ "\n")

/-- `TrackedFile::prepare_load_once` (files.rs lines 118-121). -/
def prepare_load_once (tf : TrackedFile) : String :=
  "File: " ++ tf.path ++ " [load-once]\n\n" ++ add_line_numbers tf.content

/-- `TrackedFile::prepare_for_copilot` (files.rs lines 125-131). -/
def prepare_for_copilot (tf : TrackedFile) (range : Range) : String :=
  let range_str :=
    if range.stop = 0 then ":" ++ toString range.start
    else ":" ++ toString range.start ++ "-" ++ toString range.stop
  "File: " ++ tf.path ++ range_str

/-! ## `Chat::process_file` (src/chat/core.rs lines 209-293) -/

/-- `Diff`'s `Display` impl (diff.rs lines 13-23). -/
def Diff.toStringRepr : Diff → String
  | Diff.Match (n, line) => toString n ++ " " ++ line
  | Diff.Insert (n, line) => "+ " ++ toString n ++ " " ++ line
  | Diff.Delete (n, line) => "- " ++ toString n ++ " " ++ line

/-- `Builder::with_diffs` (core.rs lines 366-391) as the list of messages
it appends: nothing for an empty edit script. -/
def with_diffs_msgs (dm : List Diff) (filename : String) : List Message :=
  if dm.isEmpty then []
  else [⟨Role.user,
    "Here the updates of the file " ++ filename ++ ":\n\n"
      ++ String.join (dm.map Diff.toStringRepr)⟩]

/-- Rust `iter().position(..)` (core.rs line 222). -/
def position (p : TrackedFile → Bool) : List TrackedFile → Option Nat
  | [] => none
  | x :: t => if p x then some 0 else (position p t).map (· + 1)

/-- The environment of one `process_file` call: the filesystem plus the
result of `reader.get_diffs` (abstracted: the snapshot's reader.rs and
its call site in core.rs disagree on this function's return type, so the
call's outcome is supplied as data: an error aborts, otherwise an
optional edit script is attached). -/
structure ProcessEnv where
  fs : FsEnv
  diffRes : Except String (Option (List Diff))

/-- `Chat::process_file` (core.rs lines 209-293) acting on the tracked-file
list.  Returns the updated list, the messages appended to the builder,
and the error, if any (on error the mutations already performed persist,
as they do through the Rust `&mut Vec`). -/
def process_file (env : ProcessEnv) (tracked_files : List TrackedFile)
    (file : String) : List TrackedFile × List Message × Option String :=
  let range := (Range.from_file_arg file).getD ⟨1, 0⟩
  let file_path := filePathOf file
  match position (fun p => p.path = file_path) tracked_files with
  | some index =>
    match tracked_files.get? index with
    | none => (tracked_files, [], some "index out of bounds")
    | some tracked_file0 =>
      let rest := tracked_files.eraseIdx index
      let tracked_file1 :=
        if tracked_file0.content = "" then (FileReader.read env.fs tracked_file0).2
        else tracked_file0
      match env.diffRes with
      | Except.error e => (rest, [], some e)
      | Except.ok diff_man =>
        let tracked_file2 := (FileReader.read env.fs tracked_file1).2
        let diffMsgs :=
          match diff_man with
          | some dm => with_diffs_msgs dm tracked_file2.path
          | none => []
        let file_content := prepare_for_copilot tracked_file2 range
        (rest.insertIdx index tracked_file2,
         diffMsgs ++ [⟨Role.user, file_content⟩], none)
  | none =>
    let tf0 := TrackedFile.from_file_arg env.fs file
    let tf1 := (FileReader.read env.fs tf0).2
    let load_content := prepare_load_once tf1
    let copilot_content := prepare_for_copilot tf1 range
    (tracked_files ++ [tf1],
     [⟨Role.user, load_content⟩, ⟨Role.user, copilot_content⟩], none)

/-! ## Claim theorems for the file reader and the tracked-file list -/

/-- C8 counterexample: with a failing filesystem read, `read` does not
return an error: it succeeds with the empty string, and both the baseline
content and the baseline modification time of the tracked file change. -/
theorem c8_counterexample :
    FileReader.read ⟨fun _ => none, fun _ => none, 99⟩ ⟨"/f", "old", 5⟩
      = (Except.ok "", ⟨"/f", "", 99⟩) ∧
    (⟨"/f", "", 99⟩ : TrackedFile).content ≠ (⟨"/f", "old", 5⟩ : TrackedFile).content ∧
    (⟨"/f", "", 99⟩ : TrackedFile).last_modification
      ≠ (⟨"/f", "old", 5⟩ : TrackedFile).last_modification :=
  ⟨rfl, by decide, by decide⟩

/-- C8 (amended): whenever reading the referenced file fails, `read` does
not abort: it returns success with the empty string, stores the empty
string as the baseline content, and sets the baseline modification time
to the filesystem modification time when available, otherwise to the
current time. -/
theorem c8_read_failure (env : FsEnv) (tf : TrackedFile)
    (h : env.readFile tf.path = none) :
    FileReader.read env tf =
      (Except.ok "",
       { tf with content := "",
                 last_modification := (env.modTime tf.path).getD env.now }) := by
  unfold FileReader.read update_modified_time
  rw [h]
  cases hm : env.modTime tf.path with
  | none => simp [hm]
  | some t => simp [hm]

/-- Witness for C8 at a concrete environment where the read fails but the
metadata call succeeds. -/
theorem c8_witness :
    (fun _ : String => (none : Option String)) "/tmp/f" = none ∧
    FileReader.read ⟨fun _ => none, fun _ => some 7, 99⟩ ⟨"/tmp/f", "old", 5⟩
      = (Except.ok "", ⟨"/tmp/f", "", 7⟩) :=
  ⟨rfl, c8_read_failure ⟨fun _ => none, fun _ => some 7, 99⟩ ⟨"/tmp/f", "old", 5⟩ rfl⟩

theorem read_path (env : FsEnv) (tf : TrackedFile) :
    ((FileReader.read env tf).2).path = tf.path := by
  unfold FileReader.read update_modified_time
  cases hm : env.modTime tf.path with
  | none => simp [hm]
  | some t => simp [hm]

theorem position_none (p : TrackedFile → Bool) :
    ∀ l : List TrackedFile, position p l = none → ∀ x ∈ l, p x = false := by
  intro l
  induction l with
  | nil => intro _ x hx; cases hx
  | cons b t ih =>
    intro h x hx
    unfold position at h
    by_cases hb : p b
    · rw [if_pos hb] at h; cases h
    · rw [if_neg hb] at h
      cases hx with
      | head => exact Bool.eq_false_iff.mpr hb
      | tail _ hxt =>
        cases hpt : position p t with
        | none => exact ih hpt x hxt
        | some i => rw [hpt] at h; cases h

theorem position_some (p : TrackedFile → Bool) :
    ∀ (l : List TrackedFile) (i : Nat), position p l = some i →
      ∃ a, l.get? i = some a ∧ p a = true := by
  intro l
  induction l with
  | nil => intro i h; cases h
  | cons b t ih =>
    intro i h
    unfold position at h
    by_cases hb : p b
    · rw [if_pos hb] at h
      cases h
      exact ⟨b, rfl, hb⟩
    · rw [if_neg hb] at h
      cases hpt : position p t with
      | none => rw [hpt] at h; cases h
      | some j =>
        rw [hpt] at h
        cases h
        obtain ⟨a, hga, hpa⟩ := ih j hpt
        exact ⟨a, hga, hpa⟩

theorem perm_cons_eraseIdx {α : Type} :
    ∀ (l : List α) (i : Nat) (a : α), l.get? i = some a → l.Perm (a :: l.eraseIdx i) := by
  intro l
  induction l with
  | nil => intro i a h; cases h
  | cons b t ih =>
    intro i a h
    cases i with
    | zero =>
      cases h
      exact List.Perm.refl _
    | succ i =>
      have ht := ih i a h
      have step1 : (b :: t).Perm (b :: a :: t.eraseIdx i) := ht.cons b
      have step2 : (b :: a :: t.eraseIdx i).Perm (a :: b :: t.eraseIdx i) :=
        List.Perm.swap a b _
      exact step1.trans step2

theorem insertIdx_perm {α : Type} :
    ∀ (n : Nat) (a : α) (l : List α), n ≤ l.length → (l.insertIdx n a).Perm (a :: l) := by
  intro n
  induction n with
  | zero =>
    intro a l _
    rw [List.insertIdx_zero]
  | succ n ih =>
    intro a l hle
    cases l with
    | nil => simp at hle
    | cons b t =>
      rw [List.insertIdx_succ_cons]
      have step1 : (b :: t.insertIdx n a).Perm (b :: a :: t) :=
        (ih a t (by simpa using hle)).cons b
      exact step1.trans (List.Perm.swap a b t)

/-- C10: if the tracked-file list has at most one entry per path, it still
does after any `process_file` call, on every outcome (success, diff
error, or the unreachable invalid-index case): the tracked branch removes
the entry, updates it without changing its path, and re-inserts it at its
original index, and the untracked branch appends a path that is not yet
present. -/
theorem c10_tracked_files_nodup (env : ProcessEnv) (l : List TrackedFile) (file : String)
    (h : (l.map TrackedFile.path).Nodup) :
    ((process_file env l file).1.map TrackedFile.path).Nodup := by
  have huntracked : ∀ henv : FsEnv,
      (∀ x ∈ l, decide (x.path = filePathOf file) = false) →
      ((l ++ [(FileReader.read henv (TrackedFile.from_file_arg henv file)).2]).map
        TrackedFile.path).Nodup := by
    intro henv hall
    have htfpath :
        ((FileReader.read henv (TrackedFile.from_file_arg henv file)).2).path
          = filePathOf file := by
      rw [read_path]
      rfl
    rw [List.map_append]
    apply List.Nodup.append h
    · simp [List.nodup_cons]
    · intro x hx hmem
      simp only [List.map_cons, List.map_nil, List.mem_singleton] at hmem
      subst hmem
      obtain ⟨tf, htf, hpath⟩ := List.mem_map.mp hx
      have hf := hall tf htf
      rw [htfpath] at hpath
      rw [hpath] at hf
      simp at hf
  have htracked : ∀ (index : Nat) (tf0 tf2 : TrackedFile),
      l.get? index = some tf0 → tf2.path = tf0.path →
      (((l.eraseIdx index).insertIdx index tf2).map TrackedFile.path).Nodup := by
    intro index tf0 tf2 hget hpath
    have hperm := perm_cons_eraseIdx l index tf0 hget
    have hnodup_cons : ((tf0 :: l.eraseIdx index).map TrackedFile.path).Nodup :=
      (hperm.map TrackedFile.path).nodup h
    rw [List.map_cons] at hnodup_cons
    have hnotmem := (List.nodup_cons.mp hnodup_cons).1
    have hrest := (List.nodup_cons.mp hnodup_cons).2
    have hlen : index < l.length := (List.get?_eq_some.mp hget).1
    have hrlen : (l.eraseIdx index).length = l.length - 1 :=
      List.length_eraseIdx_of_lt hlen
    apply (((insertIdx_perm index tf2 (l.eraseIdx index) (by omega)).map
      TrackedFile.path).symm).nodup
    rw [List.map_cons]
    exact List.nodup_cons.mpr ⟨by rw [hpath]; exact hnotmem, hrest⟩
  have herased : ∀ index : Nat,
      ((l.eraseIdx index).map TrackedFile.path).Nodup := fun index =>
    h.sublist ((List.eraseIdx_sublist l index).map TrackedFile.path)
  unfold process_file
  split
  next e hdiff =>
    dsimp only
    split
    next index hpos =>
      split
      next hget => exact h
      next tf0 hget => exact herased index
    next hpos => exact huntracked env.fs (position_none _ l hpos)
  next diff_man hdiff =>
    dsimp only
    split
    next index hpos =>
      split
      next tf0 hget => exact h
      next tf0 hget =>
        refine htracked index tf0 _ hget ?_
        rw [read_path]
        by_cases hc : tf0.content = ""
        · rw [if_pos hc, read_path]
        · rw [if_neg hc]
    next hpos => exact huntracked env.fs (position_none _ l hpos)

/-- Witness for C10 at a concrete two-file list where the referenced file
is already tracked. -/
theorem c10_witness :
    (([⟨"/a", "x", 1⟩, ⟨"/b", "", 2⟩] : List TrackedFile).map TrackedFile.path).Nodup ∧
    (((process_file
        ⟨⟨fun _ => some "new text", fun _ => some 9, 50⟩, Except.ok (some [])⟩
        [⟨"/a", "x", 1⟩, ⟨"/b", "", 2⟩] "/b:1-3").1.map TrackedFile.path).Nodup) :=
  ⟨by decide,
   c10_tracked_files_nodup
     ⟨⟨fun _ => some "new text", fun _ => some 9, 50⟩, Except.ok (some [])⟩
     [⟨"/a", "x", 1⟩, ⟨"/b", "", 2⟩] "/b:1-3" (by decide)⟩

end CopilotChat
